import Mathlib

/-!
# Verification of the transducist core

A shallow embedding of the transducist library's core: the transformer
protocol with `Reduced` signaling, the reduction engine (`core.ts`), the
stage library (`transducers.ts`), the terminal reducers (`reducers.ts`)
and the lazy iterator adapter (`iterables.ts`).

JavaScript objects with private mutable state are embedded in
state-passing style: a transformer instance is a record holding its
initial private state `s0`, its initial accumulator `init`, a `step`
function threading the private state explicitly, and a `result`
function which may also update the private state (as `PartitionAll`'s
`result` does).  JS numbers used as counters and sizes become `Int`.
-/

namespace Transducist

/-- `MaybeReduced ρ` is the return type `TResult | Reduced<TResult>` of a
step call: either a plain accumulator (`cont`) or a reduced box (`red`). -/
inductive MaybeReduced (ρ : Type) where
  | cont (value : ρ)
  | red (value : ρ)
  deriving Repr, DecidableEq

/-- `reduced` from util.ts: wrap a value in a reduced box. -/
def reduced (r : ρ) : MaybeReduced ρ := .red r

/-- `isReduced` from util.ts. -/
def isReduced : MaybeReduced ρ → Bool
  | .cont _ => false
  | .red _ => true

/-- `unreduced` from util.ts: strip the box if present. -/
def unreduced : MaybeReduced ρ → ρ
  | .cont r => r
  | .red r => r

/-- `ensureReduced` from util.ts: wrap unless already wrapped. -/
def ensureReduced : MaybeReduced ρ → MaybeReduced ρ
  | .cont r => .red r
  | .red r => .red r

/-- Map a function over the payload of a `MaybeReduced`. -/
def mrMap (f : ρ → ρ') : MaybeReduced ρ → MaybeReduced ρ'
  | .cont r => .cont (f r)
  | .red r => .red (f r)

/-- A `CompletingTransformer` instance (types.ts), in state-passing style:
`σ` is the type of the object's private mutable state, `ρ` the accumulator
type, `γ` the complete-result type and `ι` the input type.  `s0` is the
private state set up at construction, `init`/`step`/`result` are the
protocol operations, with the private state threaded explicitly. -/
structure CompletingTransformer (σ ρ γ ι : Type) : Type where
  s0 : σ
  init : ρ
  step : σ → ρ → ι → σ × MaybeReduced ρ
  result : σ → ρ → σ × γ

/-- `reduceWithFunction` from core.ts: pull source elements one at a time;
on exhaustion return the accumulator unboxed, on a reduced step result
return that reduced box at once (no further pulls). -/
def reduceWithFunction (f : σ → ρ → ι → σ × MaybeReduced ρ) :
    List ι → σ → ρ → σ × MaybeReduced ρ
  | [], s, r => (s, .cont r)
  | input :: rest, s, r =>
    match f s r input with
    | (s', .red r') => (s', .red r')
    | (s', .cont r') => reduceWithFunction f rest s' r'

/-- `reduceWithFunction`, instrumented to also report how many source
elements were pulled (the spec's "source instrumented to count pulls").
Its other two components agree with `reduceWithFunction`. -/
def reduceWithFunctionPulls (f : σ → ρ → ι → σ × MaybeReduced ρ) :
    List ι → σ → ρ → σ × MaybeReduced ρ × Nat
  | [], s, r => (s, .cont r, 0)
  | input :: rest, s, r =>
    match f s r input with
    | (s', .red r') => (s', .red r', 1)
    | (s', .cont r') =>
      let (s'', w, n) := reduceWithFunctionPulls f rest s' r'
      (s'', w, n + 1)

/-- `reduceWithTransformer` from core.ts, but also returning the
transformer's final private state (observable in JS because the object
persists): run the engine from `init()`, then call `result` exactly once
on the unreduced accumulator. -/
def runTransformer (coll : List ι) (f : CompletingTransformer σ ρ γ ι) :
    σ × γ :=
  let (s, w) := reduceWithFunction f.step coll f.s0 f.init
  f.result s (unreduced w)

/-- `reduceWithTransformer` from core.ts: the completed result. -/
def reduceWithTransformer (coll : List ι)
    (f : CompletingTransformer σ ρ γ ι) : γ :=
  (runTransformer coll f).2

/-- As `runTransformer` but also counting source pulls. -/
def runTransformerPulls (coll : List ι) (f : CompletingTransformer σ ρ γ ι) :
    (σ × γ) × Nat :=
  let (s, w, n) := reduceWithFunctionPulls f.step coll f.s0 f.init
  (f.result s (unreduced w), n)

/-- `ReducerWrappingTransformer` from core.ts: wraps a plain two-argument
reducer function; `init` returns the externally supplied initial value and
`result` is the identity function. -/
def ReducerWrappingTransformer (f : ρ → ι → MaybeReduced ρ)
    (initialValue : ρ) : CompletingTransformer Unit ρ ρ ι where
  s0 := ()
  init := initialValue
  step := fun _ r i => ((), f r i)
  result := fun _ r => ((), r)

/-- `transduce` from core.ts, in its plain-function-reducer overload: the
reducer function and the initial value are wrapped into a
`ReducerWrappingTransformer`, the transducer is applied to it and the
engine is run. -/
def transduce (coll : List ι)
    (transform :
      CompletingTransformer Unit ρ ρ ο → CompletingTransformer σ ρ ρ ι)
    (reducer : ρ → ο → MaybeReduced ρ) (initialValue : ρ) : ρ :=
  reduceWithTransformer coll
    (transform (ReducerWrappingTransformer reducer initialValue))

/-- The `toArray()` terminal transformer from reducers.ts: accumulator is
the output array, `step` pushes, `result` is the identity. -/
def toArrayXf : CompletingTransformer Unit (List γ) (List γ) γ where
  s0 := ()
  init := []
  step := fun _ r i => ((), .cont (r ++ [i]))
  result := fun _ r => ((), r)

/-! ## Stage library (transducers.ts)

Each stage wraps a downstream transformer `xf`.  Stages whose JS classes
hold private mutable fields (`Take.i`, `Drop.i`, `Interpose.isStarted`,
`PartitionAll.buffer`) get those fields as extra components of the
private-state type, initialized as in the JS constructors/field
initializers. -/

/-- The `Filter` transformer class: forwards the input iff `pred` holds. -/
def filterXf (pred : ι → Bool) (xf : CompletingTransformer σ ρ γ ι) :
    CompletingTransformer σ ρ γ ι where
  s0 := xf.s0
  init := xf.init
  step := fun s r input => if pred input then xf.step s r input else (s, .cont r)
  result := xf.result

/-- The `MapTransformer` class: forwards `f(input)`. -/
def mapXf (f : ι → ο) (xf : CompletingTransformer σ ρ γ ο) :
    CompletingTransformer σ ρ γ ι where
  s0 := xf.s0
  init := xf.init
  step := fun s r input => xf.step s r (f input)
  result := xf.result

/-- The `Take` transformer class: private counter `i` starts at 0; for
`n <= 0` every step returns `reduced(result)` before touching the
downstream; otherwise the input is forwarded and the result is wrapped
with `ensureReduced` as soon as the old counter reaches `n - 1` ("written
this way to avoid pulling one more element than necessary"). -/
def takeXf (n : Int) (xf : CompletingTransformer σ ρ γ ι) :
    CompletingTransformer (Int × σ) ρ γ ι where
  s0 := (0, xf.s0)
  init := xf.init
  step := fun p r input =>
    if n ≤ 0 then (p, .red r)
    else
      let (s', next) := xf.step p.2 r input
      ((p.1 + 1, s'), if p.1 < n - 1 then next else ensureReduced next)
  result := fun p r =>
    let (s', g) := xf.result p.2 r
    ((p.1, s'), g)

/-- The `TakeWhile` transformer class: forwards while `pred` holds; on the
first failure returns `reduced(result)` without forwarding. -/
def takeWhileXf (pred : ι → Bool) (xf : CompletingTransformer σ ρ γ ι) :
    CompletingTransformer σ ρ γ ι where
  s0 := xf.s0
  init := xf.init
  step := fun s r input =>
    if pred input then xf.step s r input else (s, .red r)
  result := xf.result

/-- The `Drop` transformer class: private counter `i`; swallows the input
while `i++ < n`, forwards afterwards. -/
def dropXf (n : Int) (xf : CompletingTransformer σ ρ γ ι) :
    CompletingTransformer (Int × σ) ρ γ ι where
  s0 := (0, xf.s0)
  init := xf.init
  step := fun p r input =>
    if p.1 < n then ((p.1 + 1, p.2), .cont r)
    else
      let (s', w) := xf.step p.2 r input
      ((p.1 + 1, s'), w)
  result := fun p r =>
    let (s', g) := xf.result p.2 r
    ((p.1, s'), g)

/-- The `Interpose` transformer class: private flag `isStarted`; after the
first input, each step first forwards the separator, propagating a reduced
result at once without forwarding the paired input, and otherwise forwards
the input. -/
def interposeXf (separator : ι) (xf : CompletingTransformer σ ρ γ ι) :
    CompletingTransformer (Bool × σ) ρ γ ι where
  s0 := (false, xf.s0)
  init := xf.init
  step := fun p r input =>
    if p.1 then
      match xf.step p.2 r separator with
      | (s₁, .red r₁) => ((p.1, s₁), .red r₁)
      | (s₁, .cont r₁) =>
        let (s₂, w) := xf.step s₁ r₁ input
        ((p.1, s₂), w)
    else
      let (s₁, w) := xf.step p.2 r input
      ((true, s₁), w)
  result := fun p r =>
    let (s', g) := xf.result p.2 r
    ((p.1, s'), g)

/-- The `FlatMap` transformer class: each step runs `reduceWithFunction`
over `f(input)` with the downstream step, so a reduced downstream result
stops the sub-sequence and propagates upward. -/
def flatMapXf (f : ι → List ο) (xf : CompletingTransformer σ ρ γ ο) :
    CompletingTransformer σ ρ γ ι where
  s0 := xf.s0
  init := xf.init
  step := fun s r input => reduceWithFunction xf.step (f input) s r
  result := xf.result

/-- The `PartitionAll` transformer class: private `buffer`; `step` pushes
the input and forwards the buffer as one group exactly when it reaches
size `n`, then clears it; `result` flushes a non-empty trailing buffer as
one final group (unwrapping a reduced downstream result) before delegating
to the downstream `result`. -/
def partitionAllXf (n : Int) (xf : CompletingTransformer σ ρ γ (List ι)) :
    CompletingTransformer (List ι × σ) ρ γ ι where
  s0 := ([], xf.s0)
  init := xf.init
  step := fun p r input =>
    let buf := p.1 ++ [input]
    if (buf.length : Int) = n then
      let (s', w) := xf.step p.2 r buf
      (([], s'), w)
    else
      ((buf, p.2), .cont r)
  result := fun p r =>
    if p.1.length > 0 then
      let (s', w) := xf.step p.2 r p.1
      let (s'', g) := xf.result s' (unreduced w)
      (([], s''), g)
    else
      let (s', g) := xf.result p.2 r
      ((p.1, s'), g)

/-- The `TakeNth` transformer class: its counter `i` lives inside the
accumulator (`TakeNthState`), wrapping the downstream accumulator; the
input is forwarded iff `i++ % n === 0`, with `updateValue` re-wrapping a
reduced downstream result around the state record. -/
def takeNthXf (n : Int) (xf : CompletingTransformer σ ρ γ ι) :
    CompletingTransformer σ (Int × ρ) γ ι where
  s0 := xf.s0
  init := (0, xf.init)
  step := fun s p input =>
    if p.1 % n = 0 then
      let (s', w) := xf.step s p.2 input
      (s', mrMap (fun r' => (p.1 + 1, r')) w)
    else
      (s, .cont (p.1 + 1, p.2))
  result := fun s p => xf.result s p.2

/-- The `partitionAll` factory function: throws at construction time for
`n = 0` and for negative `n`, and otherwise returns the transducer.
Modeled with `Except`: the error occurs before any source element exists. -/
def partitionAll (n : Int) :
    Except String
      (CompletingTransformer σ ρ γ (List ι) →
        CompletingTransformer (List ι × σ) ρ γ ι) :=
  if n = 0 then .error "Size in partitionAll() cannot be 0"
  else if n < 0 then .error "Size in partitionAll() cannot be negative"
  else .ok (partitionAllXf n)

/-- The `takeNth` factory function: throws at construction time for
`n = 0` and for negative `n`, and otherwise returns the transducer. -/
def takeNth (n : Int) :
    Except String
      (CompletingTransformer σ ρ γ ι → CompletingTransformer σ (Int × ρ) γ ι) :=
  if n = 0 then .error "Step in takeNth() cannot be 0"
  else if n < 0 then .error "Step in takeNth() cannot be negative"
  else .ok (takeNthXf n)

/-- The `toAverage()` terminal transformer from reducers.ts: accumulator
is the pair `[sum, count]`; `step` adds the input to the sum and bumps the
count; `result` returns `null` (`none`) when the count is 0 — guarding the
division — and the sum divided by the count otherwise.  JS numbers are
modeled as rationals. -/
def toAverage : CompletingTransformer Unit (ℚ × ℚ) (Option ℚ) ℚ where
  s0 := ()
  init := (0, 0)
  step := fun _ p input => ((), .cont (p.1 + input, p.2 + 1))
  result := fun _ p => ((), if p.2 = 0 then none else some (p.1 / p.2))

/-! ## Lazy iterator adapter (iterables.ts)

`TransducerIterable` wraps the raw source iterator and the combined
transformer `xfToArray = xf(toArray())`.  Its state is the remaining
source, the backlog of already-computed outputs (`upcoming`), the
termination flag (`hasSeenEnd`) and the combined transformer's private
state.  Each `next()` call pops the backlog if possible; otherwise, if
the end was seen, reports exhaustion; otherwise pulls source elements one
at a time, feeding each through `step` with a fresh `[]` accumulator,
until a non-empty batch, exhaustion, or a reduced result appears. -/

/-- The state of a `TransducerIterable`. -/
structure LazySt (S ι γ : Type) : Type where
  source : List ι
  upcoming : List γ
  hasSeenEnd : Bool
  xfState : S
  deriving Repr, DecidableEq

/-- One `next()` call of `TransducerIterable`, also counting how many
source elements were pulled during the call.  The four arguments are the
fields of the iterator state. -/
def lazyNextAux (step : S → List γ → ι → S × MaybeReduced (List γ)) :
    List ι → List γ → Bool → S → Option γ × LazySt S ι γ × Nat
  | src, y :: ys, seen, s => (some y, ⟨src, ys, seen, s⟩, 0)
  | src, [], true, s => (none, ⟨src, [], true, s⟩, 0)
  | [], [], false, s => (none, ⟨[], [], false, s⟩, 0)
  | v :: src', [], false, s =>
    match step s [] v with
    | (s', .cont outs) =>
      let (o, st, n) := lazyNextAux step src' outs false s'
      (o, st, n + 1)
    | (s', .red outs) =>
      let (o, st, n) := lazyNextAux step src' outs true s'
      (o, st, n + 1)

/-- One `next()` call of `TransducerIterable`, from an iterator state. -/
def lazyNext (step : S → List γ → ι → S × MaybeReduced (List γ))
    (st : LazySt S ι γ) : Option γ × LazySt S ι γ × Nat :=
  lazyNextAux step st.source st.upcoming st.hasSeenEnd st.xfState

/-- Call `next()` up to `k` times, collecting the yielded outputs in
order, stopping early if the iterator reports exhaustion; also counts the
total number of source elements pulled. -/
def lazyConsume (step : S → List γ → ι → S × MaybeReduced (List γ)) :
    Nat → LazySt S ι γ → List γ × LazySt S ι γ × Nat
  | 0, st => ([], st, 0)
  | k + 1, st =>
    match lazyNext step st with
    | (none, st', n) => ([], st', n)
    | (some y, st', n) =>
      let (ys, st'', m) := lazyConsume step k st'
      (y :: ys, st'', n + m)

/-! ## Chains (chain.ts)

`TransducerChain` accumulates stage transducers; `build()` nests them so
that the first-declared stage is closest to the raw input.  A chain is
embedded as a `Pipe`: a typed list of stage constructors.  Only stages
whose JS classes keep their mutable state in `this` (rather than inside
the accumulator) are included, since those are the ones the lazy iterator
adapter (which always passes a fresh `[]` accumulator to `step`) can
drive. -/

/-- A chain of stages: `Pipe α γ` transforms a stream of `α` into a
stream of `γ`.  Constructors mirror the chain methods of chain.ts. -/
inductive Pipe : Type → Type → Type 1 where
  | nil : Pipe γ γ
  | map : (α → β) → Pipe β γ → Pipe α γ
  | filter : (α → Bool) → Pipe α γ → Pipe α γ
  | take : Int → Pipe α γ → Pipe α γ
  | takeWhile : (α → Bool) → Pipe α γ → Pipe α γ
  | drop : Int → Pipe α γ → Pipe α γ
  | interpose : α → Pipe α γ → Pipe α γ
  | flatMap : (α → List β) → Pipe β γ → Pipe α γ
  | partitionAll : Int → Pipe (List α) γ → Pipe α γ

/-- The private-state type of the transformer built from a pipe over a
terminal transformer with private state `σ`. -/
def Pipe.S : Pipe α γ → Type → Type
  | .nil, σ => σ
  | .map _ rest, σ => rest.S σ
  | .filter _ rest, σ => rest.S σ
  | .take _ rest, σ => Int × rest.S σ
  | .takeWhile _ rest, σ => rest.S σ
  | .drop _ rest, σ => Int × rest.S σ
  | .interpose _ rest, σ => Bool × rest.S σ
  | .flatMap _ rest, σ => rest.S σ
  | @Pipe.partitionAll α _ _ rest, σ => List α × rest.S σ

/-- `build()` of chain.ts applied to a terminal transformer: nest the
stage transformers so the first-declared stage sees raw input first. -/
def Pipe.apply : (p : Pipe α γ) → CompletingTransformer σ ρ c γ →
    CompletingTransformer (p.S σ) ρ c α
  | .nil, xf => xf
  | .map f rest, xf => mapXf f (rest.apply xf)
  | .filter q rest, xf => filterXf q (rest.apply xf)
  | .take n rest, xf => takeXf n (rest.apply xf)
  | .takeWhile q rest, xf => takeWhileXf q (rest.apply xf)
  | .drop n rest, xf => dropXf n (rest.apply xf)
  | .interpose sep rest, xf => interposeXf sep (rest.apply xf)
  | .flatMap f rest, xf => flatMapXf f (rest.apply xf)
  | .partitionAll n rest, xf => partitionAllXf n (rest.apply xf)

/-- Whether every stage of the pipe forwards `result` verbatim (no stage
emits buffered elements during `result`): true for every stage here
except `partitionAll`. -/
def Pipe.resultFree : Pipe α γ → Bool
  | .nil => true
  | .map _ rest => rest.resultFree
  | .filter _ rest => rest.resultFree
  | .take _ rest => rest.resultFree
  | .takeWhile _ rest => rest.resultFree
  | .drop _ rest => rest.resultFree
  | .interpose _ rest => rest.resultFree
  | .flatMap _ rest => rest.resultFree
  | .partitionAll _ _ => false

/-- `chain.toArray()`: `reduce(toArray())`, i.e. the engine over the
built transformer with the array-collecting terminal. -/
def Pipe.toArrayRun (p : Pipe α γ) (l : List α) : List γ :=
  reduceWithTransformer l (p.apply toArrayXf)

/-- The step function of `xfToArray = xf(toArray())` used by the lazy
iterator adapter for this pipe. -/
def Pipe.lazyStep (p : Pipe α γ) :
    p.S Unit → List γ → α → p.S Unit × MaybeReduced (List γ) :=
  (p.apply toArrayXf).step

/-- `chain.toIterator()`: the initial `TransducerIterable` state over the
source, with an empty backlog, the termination flag unset and the
combined transformer's freshly constructed private state. -/
def Pipe.iter (p : Pipe α γ) (l : List α) : LazySt (p.S Unit) α γ :=
  ⟨l, [], false, (p.apply toArrayXf).s0⟩

/-! ## Stream semantics used to state laziness

`runSteps` feeds source elements one at a time through `step`, each with
a fresh `[]` accumulator, concatenating the emitted batches and stopping
at a reduced result: the outputs a chain emits from a given stretch of
source, exclusive of any `result()`-time flush. -/

/-- Feed the elements of `src` one at a time with fresh `[]` accumulators;
return the final private state, whether a reduced result stopped the run,
and the concatenation of the emitted batches. -/
def runSteps (step : S → List γ → ι → S × MaybeReduced (List γ)) :
    S → List ι → S × Bool × List γ
  | s, [] => (s, false, [])
  | s, v :: src =>
    match step s [] v with
    | (s', .cont outs) =>
      let (s'', b, rest) := runSteps step s' src
      (s'', b, outs ++ rest)
    | (s', .red outs) => (s', true, outs)

/-- The elements emitted by `step` over `src` (stream semantics). -/
def emitted (step : S → List γ → ι → S × MaybeReduced (List γ))
    (s : S) (src : List ι) : List γ :=
  (runSteps step s src).2.2

/-- A step function only appends to the array accumulator it is given:
its behavior on accumulator `r` is its behavior on `[]` with the output
batch appended after `r`.  Every `xf(toArray())` built from a `Pipe`
satisfies this. -/
def StepApp (step : S → List γ → ι → S × MaybeReduced (List γ)) : Prop :=
  ∀ s r i, step s r i = ((step s [] i).1, mrMap (r ++ ·) (step s [] i).2)

/-- All outputs a lazy iterator in state `st` will still yield: the
backlog, followed — unless the end was already seen — by everything the
remaining source will make the pipeline emit. -/
def future (step : S → List γ → ι → S × MaybeReduced (List γ))
    (st : LazySt S ι γ) : List γ :=
  st.upcoming ++
    if st.hasSeenEnd then [] else emitted step st.xfState st.source

/-! ## Specification-side definitions

These are written from the spec's words, to be compared with the
code-side definitions above. -/

/-- Modelled from the spec: "a left fold of the reducer over the
transformed elements starting from that initial value (stopping early if
the reducer returns a Reduced value)". -/
def specFold (f : ρ → ι → MaybeReduced ρ) : ρ → List ι → ρ
  | r, [] => r
  | r, i :: l =>
    match f r i with
    | .cont r' => specFold f r' l
    | .red r' => r'

/-- Modelled from the spec: `partitionAll(n)` "buffers inputs; once the
buffer reaches size `n`, forwards the buffer as one group and clears it",
and "a non-empty trailing buffer is flushed during `result()`".  `buf` is
the current buffer contents. -/
def chunkSpec (n : Int) : List α → List α → List (List α)
  | buf, [] => if buf.length > 0 then [buf] else []
  | buf, a :: l =>
    let buf' := buf ++ [a]
    if (buf'.length : Int) = n then buf' :: chunkSpec n [] l
    else chunkSpec n buf' l

/-- Modelled from the spec: `interpose(sep)` forwards the first input
without a preceding separator and, "before every input except the first,
forwards `sep` then the input". -/
def interposeSpec (sep : α) : List α → List α
  | [] => []
  | a :: l => a :: l.flatMap (fun x => [sep, x])

/-- Protocol events observed by an instrumented transformer. -/
inductive Ev where
  | stepped
  | resulted
  deriving Repr, DecidableEq

/-- An instrumented custom terminal transformer that signals short-circuit
on its first `step` call: its private state logs every `step` and `result`
call, its `step` returns `Reduced(acc + 1)`, and its `result` returns the
accumulator it was handed. -/
def shortCircuitLogger (ι : Type) :
    CompletingTransformer (List Ev) Nat Nat ι where
  s0 := []
  init := 0
  step := fun log r _ => (log ++ [.stepped], .red (r + 1))
  result := fun log r => (log ++ [.resulted], r)

/-- Whether an `Except` is an error (a thrown construction). -/
def isErr : Except ε α → Bool
  | .error _ => true
  | .ok _ => false

/-! ## Basic lemmas -/

/-- Unfolding lemma: `runTransformer` in terms of projections. -/
theorem runTransformer_eq (coll : List ι)
    (f : CompletingTransformer σ ρ γ ι) :
    runTransformer coll f =
      f.result (reduceWithFunction f.step coll f.s0 f.init).1
        (unreduced (reduceWithFunction f.step coll f.s0 f.init).2) := rfl

/-- Unfolding lemma: `reduceWithTransformer` in terms of projections. -/
theorem reduceWithTransformer_eq (coll : List ι)
    (f : CompletingTransformer σ ρ γ ι) :
    reduceWithTransformer coll f =
      (f.result (reduceWithFunction f.step coll f.s0 f.init).1
        (unreduced (reduceWithFunction f.step coll f.s0 f.init).2)).2 := rfl

/-- Unfolding lemma: `runTransformerPulls` in terms of projections. -/
theorem runTransformerPulls_eq (coll : List ι)
    (f : CompletingTransformer σ ρ γ ι) :
    runTransformerPulls coll f =
      (f.result (reduceWithFunctionPulls f.step coll f.s0 f.init).1
          (unreduced (reduceWithFunctionPulls f.step coll f.s0 f.init).2.1),
        (reduceWithFunctionPulls f.step coll f.s0 f.init).2.2) := rfl

theorem mrMap_mrMap (f : ρ → ρ') (g : ρ' → ρ'') (w : MaybeReduced ρ) :
    mrMap g (mrMap f w) = mrMap (fun r => g (f r)) w := by
  cases w <;> rfl

theorem mrMap_append_append (r o : List γ) (w : MaybeReduced (List γ)) :
    mrMap (fun x => r ++ o ++ x) w =
      mrMap (fun x => r ++ x) (mrMap (fun x => o ++ x) w) := by
  cases w <;> simp [mrMap, List.append_assoc]

theorem ensureReduced_mrMap (f : ρ → ρ') (w : MaybeReduced ρ) :
    ensureReduced (mrMap f w) = mrMap f (ensureReduced w) := by
  cases w <;> rfl

theorem unreduced_mrMap (f : ρ → ρ') (w : MaybeReduced ρ) :
    unreduced (mrMap f w) = f (unreduced w) := by
  cases w <;> rfl

theorem mrMap_id (w : MaybeReduced ρ) : mrMap (fun r => r) w = w := by
  cases w <;> rfl

/-- The instrumented engine agrees with the plain one in its first two
components. -/
theorem reduceWithFunctionPulls_eq (f : σ → ρ → ι → σ × MaybeReduced ρ) :
    ∀ (l : List ι) (s : σ) (r : ρ),
      ((reduceWithFunctionPulls f l s r).1,
        (reduceWithFunctionPulls f l s r).2.1) = reduceWithFunction f l s r
  | [], s, r => rfl
  | input :: rest, s, r => by
    rcases h : f s r input with ⟨s', w⟩
    cases w with
    | red r' => simp [reduceWithFunction, reduceWithFunctionPulls, h]
    | cont r' =>
      have ih := reduceWithFunctionPulls_eq f rest s' r'
      simp only [reduceWithFunction, reduceWithFunctionPulls, h]
      rcases h2 : reduceWithFunctionPulls f rest s' r' with ⟨s'', w', n⟩
      rw [h2] at ih
      simpa using ih

/-! ## The `Take` stage (claim C3 helpers) -/

/-- With `n <= 0`, `Take.step` returns `reduced(result)` at once: the
downstream transformer is untouched, its state and the accumulator are
returned unchanged, and nothing is forwarded. -/
theorem takeXf_step_nonpos (n : Int) (xf : CompletingTransformer σ ρ γ ι)
    (hn : n ≤ 0) (s : Int × σ) (r : ρ) (i : ι) :
    (takeXf n xf).step s r i = (s, .red r) := by
  simp [takeXf, if_pos hn]

/-- With `0 < n`, `Take.step` wraps the downstream result with
`ensureReduced` exactly on the step whose incoming counter is `n - 1`,
i.e. on the step that forwards the `n`-th element. -/
theorem takeXf_step_last (n : Int) (xf : CompletingTransformer σ ρ γ ι)
    (hn : 0 < n) (s : σ) (r : ρ) (i : ι) :
    (takeXf n xf).step (n - 1, s) r i =
      ((n, (xf.step s r i).1), ensureReduced (xf.step s r i).2) := by
  have hn' : ¬n ≤ 0 := by omega
  have heq : (n : Int) - 1 + 1 = n := by omega
  rcases h : xf.step s r i with ⟨s', w⟩
  simp [takeXf, hn', h, heq]

/-- With `0 < n`, `Take.step` forwards the downstream result unwrapped on
every step whose incoming counter is below `n - 1` (the transition to
`Reduced` does not happen before the `n`-th forward). -/
theorem takeXf_step_before (n : Int) (xf : CompletingTransformer σ ρ γ ι)
    (i : Int) (hn : 0 < n) (hi : i < n - 1) (s : σ) (r : ρ) (v : ι) :
    (takeXf n xf).step (i, s) r v =
      ((i + 1, (xf.step s r v).1), (xf.step s r v).2) := by
  have hn' : ¬n ≤ 0 := by omega
  rcases h : xf.step s r v with ⟨s', w⟩
  simp [takeXf, hn', h, if_pos hi]

/-- The engine over `take(n).toArray()` from an intermediate counter `i`:
with `n - i` elements still to forward and a long enough source, it pulls
exactly `n - i` elements, forwards exactly them, and ends reduced. -/
theorem take_engine (n : Int) (hn : 0 < n) :
    ∀ (l : List α) (i : Int) (r : List α), 0 ≤ i → i ≤ n - 1 →
      n - i ≤ l.length →
      reduceWithFunctionPulls (takeXf n toArrayXf).step l ((i, ())) r =
        ((n, ()), .red (r ++ l.take (n - i).toNat), (n - i).toNat)
  | [], i, r, h0, h1, h2 => by simp at h2; omega
  | v :: rest, i, r, h0, h1, h2 => by
    by_cases hlt : i < n - 1
    · have hstep := takeXf_step_before n toArrayXf i hn hlt () r v
      have ih := take_engine n hn rest (i + 1) (r ++ [v]) (by omega) (by omega)
        (by simp at h2 ⊢; omega)
      simp only [reduceWithFunctionPulls, hstep]
      simp only [toArrayXf] at *
      rw [ih]
      have htn : (n - i).toNat = (n - (i + 1)).toNat + 1 := by omega
      simp [htn, List.take_succ_cons]
    · have hi : i = n - 1 := by omega
      subst hi
      have hstep := takeXf_step_last n toArrayXf hn () r v
      simp only [reduceWithFunctionPulls, hstep]
      have htn : (n - (n - 1)).toNat = 1 := by omega
      simp [toArrayXf, ensureReduced, htn]

/-- `take(n).toArray()` on any source with at least `n` elements, `0 < n`:
the engine pulls exactly `n` source elements (never `n + 1`; in
particular the result does not depend on any element past the `n`-th) and
produces exactly the first `n` elements. -/
theorem take_toArray_pulls (n : Int) (l : List α) (hn : 0 < n)
    (hl : n ≤ l.length) :
    runTransformerPulls l (takeXf n toArrayXf) =
      (((n, ()), l.take n.toNat), n.toNat) := by
  have h := take_engine n hn l 0 [] le_rfl (by omega) (by omega)
  show (let (s, w, m) :=
      reduceWithFunctionPulls (takeXf n toArrayXf).step l (0, ()) [];
      ((takeXf n toArrayXf).result s (unreduced w), m)) = _
  rw [h]
  have h0 : ((n : Int) - 0).toNat = n.toNat := by omega
  simp [takeXf, toArrayXf, unreduced, h0]

/-- `take(n).toArray()` with `n <= 0` on a non-empty source: the first
step call returns reduced before forwarding anything; one element is
pulled (the engine pulls before stepping) and the output is empty. -/
theorem take_toArray_nonpos (n : Int) (hn : n ≤ 0) (a : α) (rest : List α) :
    runTransformerPulls (a :: rest) (takeXf n toArrayXf) =
      (((0, ()), []), 1) := by
  have hstep := takeXf_step_nonpos n (@toArrayXf α) hn (0, ()) [] a
  show (let (s, w, m) :=
      reduceWithFunctionPulls (takeXf n toArrayXf).step (a :: rest) (0, ()) [];
      ((takeXf n toArrayXf).result s (unreduced w), m)) = _
  simp only [reduceWithFunctionPulls, hstep]
  simp [takeXf, toArrayXf, unreduced]

/-- C3: `take(n)` forwards at most the first `n` elements and returns a
`Reduced` value on the very step that forwards the `n`-th element, so the
engine never pulls the `(n+1)`-th element: on any source with at least
`n` elements it pulls exactly `n` and outputs exactly the first `n`
(independent of everything past the `n`-th element); for `n <= 0` every
step short-circuits without forwarding, so the output is empty and only
the single engine pull before the first step happens; concretely
`take(2).toArray()` pulls exactly 2 elements, never 3. -/
theorem take_short_circuit :
    (∀ (α : Type) (n : Int) (l : List α), 0 < n → n ≤ l.length →
      runTransformerPulls l (takeXf n toArrayXf) =
        (((n, ()), l.take n.toNat), n.toNat))
    ∧ (∀ (σ ρ γ ι : Type) (n : Int) (xf : CompletingTransformer σ ρ γ ι)
        (s : Int × σ) (r : ρ) (i : ι), n ≤ 0 →
        (takeXf n xf).step s r i = (s, .red r))
    ∧ (∀ (σ ρ γ ι : Type) (n : Int) (xf : CompletingTransformer σ ρ γ ι)
        (s : σ) (r : ρ) (i : ι), 0 < n →
        (takeXf n xf).step (n - 1, s) r i =
          ((n, (xf.step s r i).1), ensureReduced (xf.step s r i).2))
    ∧ (∀ (α : Type) (n : Int) (a : α) (rest : List α), n ≤ 0 →
        runTransformerPulls (a :: rest) (takeXf n toArrayXf) =
          (((0, ()), []), 1))
    ∧ runTransformerPulls ([10, 20, 30, 40, 50] : List Int)
        (takeXf 2 toArrayXf) = (((2, ()), [10, 20]), 2) := by
  refine ⟨?_, ?_, ?_, ?_, ?_⟩
  · intro α n l hn hl
    exact take_toArray_pulls n l hn hl
  · intro σ ρ γ ι n xf s r i hn
    exact takeXf_step_nonpos n xf hn s r i
  · intro σ ρ γ ι n xf s r i hn
    exact takeXf_step_last n xf hn s r i
  · intro α n a rest hn
    exact take_toArray_nonpos n hn a rest
  · rfl

theorem take_short_circuit_witness :
    ((0 : Int) < 2 ∧ (2 : Int) ≤ ([10, 20, 30] : List Int).length) ∧
    runTransformerPulls ([10, 20, 30] : List Int) (takeXf 2 toArrayXf) =
      (((2, ()), [10, 20]), 2) :=
  ⟨⟨by decide, by decide⟩,
    take_short_circuit.1 Int 2 [10, 20, 30] (by decide) (by decide)⟩

/-- C4: when a step call returns a `Reduced` value the engine performs no
further pulls and no further step calls and returns at once; a custom
transformer signalling short-circuit on its first step call receives
exactly one `step` call and exactly one `result` call, with the `Reduced`
value unwrapped exactly once into the accumulator handed to `result`. -/
theorem engine_short_circuit_once :
    (∀ (σ ρ ι : Type) (f : σ → ρ → ι → σ × MaybeReduced ρ) (s s' : σ)
        (r r' : ρ) (i : ι) (rest : List ι), f s r i = (s', .red r') →
        reduceWithFunctionPulls f (i :: rest) s r = (s', .red r', 1))
    ∧ (∀ (ι : Type) (a : ι) (rest : List ι),
        runTransformerPulls (a :: rest) (shortCircuitLogger ι) =
          (([.stepped, .resulted], 1), 1)) := by
  constructor
  · intro σ ρ ι f s s' r r' i rest h
    simp [reduceWithFunctionPulls, h]
  · intro ι a rest
    show (let (s, w, m) :=
      reduceWithFunctionPulls (shortCircuitLogger ι).step (a :: rest) [] 0;
      ((shortCircuitLogger ι).result s (unreduced w), m)) = _
    simp [reduceWithFunctionPulls, shortCircuitLogger, unreduced]

theorem engine_short_circuit_once_witness :
    (shortCircuitLogger Int).step [] 0 7 = ([.stepped], .red 1) ∧
    reduceWithFunctionPulls (shortCircuitLogger Int).step [7, 8, 9] [] 0 =
      ([.stepped], .red 1, 1) :=
  ⟨rfl, engine_short_circuit_once.1 (List Ev) Nat Int
    (shortCircuitLogger Int).step [] [.stepped] 0 1 7 [8, 9] rfl⟩

/-! ## The `TakeWhile` stage (claim C7 helpers) -/

/-- The engine over `takeWhile(pred).toArray()`: it forwards exactly the
longest satisfying prefix, ends reduced iff a failing element exists, and
pulls exactly the satisfying prefix plus the one failing element (which
is pulled but never forwarded). -/
theorem takeWhile_engine (pred : α → Bool) :
    ∀ (l : List α) (r : List α),
      reduceWithFunctionPulls (takeWhileXf pred toArrayXf).step l () r =
        ((),
          (if (l.takeWhile pred).length = l.length then
            MaybeReduced.cont (r ++ l.takeWhile pred)
          else MaybeReduced.red (r ++ l.takeWhile pred)),
          (l.takeWhile pred).length +
            if (l.takeWhile pred).length = l.length then 0 else 1)
  | [], r => by simp [reduceWithFunctionPulls]
  | v :: rest, r => by
    by_cases hp : pred v
    · have hstep : (takeWhileXf pred toArrayXf).step () r v =
          ((), .cont (r ++ [v])) := by simp [takeWhileXf, toArrayXf, hp]
      have ih := takeWhile_engine pred rest (r ++ [v])
      simp only [reduceWithFunctionPulls, hstep, ih]
      have ht : (v :: rest).takeWhile pred = v :: rest.takeWhile pred := by
        simp [List.takeWhile_cons, hp]
      rw [ht]
      by_cases hc : (rest.takeWhile pred).length = rest.length
      · simp [hc]
      · simp only [List.length_cons]
        rw [if_neg (by omega), if_neg hc, if_neg (by omega)]
        simp [hc]
    · have hstep : (takeWhileXf pred toArrayXf).step () r v =
          ((), .red r) := by simp [takeWhileXf, hp]
      simp only [reduceWithFunctionPulls, hstep]
      have ht : (v :: rest).takeWhile pred = [] := by
        simp [List.takeWhile_cons, hp]
      rw [ht]
      simp

/-- C7: `takeWhile(pred)` forwards each input while `pred` holds of it;
on the first input for which `pred` fails it returns a `Reduced` value at
once without forwarding that input (downstream untouched); over `toArray`
it produces exactly the longest satisfying prefix, pulling that prefix
plus the single failing element; concretely on `[1,2,3,4,5]` with
`n < 3` the output is `[1,2]` and exactly 3 elements are pulled. -/
theorem takeWhile_stops_before_failure :
    (∀ (σ ρ γ ι : Type) (xf : CompletingTransformer σ ρ γ ι)
        (pred : ι → Bool) (s : σ) (r : ρ) (i : ι), pred i = true →
        (takeWhileXf pred xf).step s r i = xf.step s r i)
    ∧ (∀ (σ ρ γ ι : Type) (xf : CompletingTransformer σ ρ γ ι)
        (pred : ι → Bool) (s : σ) (r : ρ) (i : ι), pred i = false →
        (takeWhileXf pred xf).step s r i = (s, .red r))
    ∧ (∀ (α : Type) (pred : α → Bool) (l : List α),
        runTransformerPulls l (takeWhileXf pred toArrayXf) =
          (((), l.takeWhile pred),
            (l.takeWhile pred).length +
              if (l.takeWhile pred).length = l.length then 0 else 1))
    ∧ runTransformerPulls ([1, 2, 3, 4, 5] : List Int)
        (takeWhileXf (fun n => decide (n < 3)) toArrayXf) =
          (((), [1, 2]), 3) := by
  refine ⟨?_, ?_, ?_, ?_⟩
  · intro σ ρ γ ι xf pred s r i hp
    simp [takeWhileXf, hp]
  · intro σ ρ γ ι xf pred s r i hp
    simp [takeWhileXf, hp]
  · intro α pred l
    have h := takeWhile_engine pred l []
    show (let (s, w, m) :=
      reduceWithFunctionPulls (takeWhileXf pred toArrayXf).step l () [];
      ((takeWhileXf pred toArrayXf).result s (unreduced w), m)) = _
    rw [h]
    by_cases hc : (l.takeWhile pred).length = l.length <;>
      simp [hc, takeWhileXf, toArrayXf, unreduced]
  · rfl

theorem takeWhile_stops_before_failure_witness :
    ((fun n => decide (n < 3)) (1 : Int) = true ∧
      (takeWhileXf (fun n => decide (n < 3)) (@toArrayXf Int)).step () [] 1 =
        (@toArrayXf Int).step () [] 1) ∧
    ((fun n => decide (n < 3)) (5 : Int) = false ∧
      (takeWhileXf (fun n => decide (n < 3)) (@toArrayXf Int)).step () [9] 5 =
        ((), .red [9])) :=
  ⟨⟨rfl, takeWhile_stops_before_failure.1 Unit (List Int) (List Int) Int
      toArrayXf (fun n => decide (n < 3)) () [] 1 rfl⟩,
    ⟨rfl, takeWhile_stops_before_failure.2.1 Unit (List Int) (List Int) Int
      toArrayXf (fun n => decide (n < 3)) () [9] 5 rfl⟩⟩

/-! ## The `Interpose` stage (claim C5 helpers) -/

/-- The engine over `interpose(sep).toArray()` once started: every
remaining input is preceded by the separator. -/
theorem interpose_started_engine (sep : α) :
    ∀ (l : List α) (r : List α),
      reduceWithFunction (interposeXf sep toArrayXf).step l (true, ()) r =
        ((true, ()), .cont (r ++ l.flatMap (fun x => [sep, x])))
  | [], r => by simp [reduceWithFunction]
  | v :: rest, r => by
    have hstep : (interposeXf sep toArrayXf).step (true, ()) r v =
        ((true, ()), .cont (r ++ [sep] ++ [v])) := by
      simp [interposeXf, toArrayXf]
    have ih := interpose_started_engine sep rest (r ++ [sep] ++ [v])
    simp only [reduceWithFunction, hstep, ih]
    simp

/-- `interpose(sep).toArray()` produces the first input bare and every
subsequent input preceded by the separator. -/
theorem interpose_toArray (sep : α) (l : List α) :
    reduceWithTransformer l (interposeXf sep toArrayXf) =
      interposeSpec sep l := by
  cases l with
  | nil => rfl
  | cons a rest =>
    have hstep : (interposeXf sep toArrayXf).step (false, ()) [] a =
        ((true, ()), .cont [a]) := by simp [interposeXf, toArrayXf]
    have h := interpose_started_engine sep rest [a]
    have hs : (interposeXf sep (@toArrayXf α)).s0 = (false, ()) := rfl
    have hi : (interposeXf sep (@toArrayXf α)).init = [] := rfl
    rw [reduceWithTransformer_eq, hs, hi]
    simp only [reduceWithFunction, hstep]
    rw [h]
    simp [interposeXf, toArrayXf, unreduced, interposeSpec]

/-- C5: `interpose(sep)` forwards the first input without a preceding
separator and, before every subsequent input, forwards `sep` then the
input; whenever forwarding `sep` itself returns a `Reduced` value that
value propagates upward unchanged and the paired input is never
forwarded; concretely `interpose(0)` on `[1,2,3]` yields
`[1,0,2,0,3]`. -/
theorem interpose_sep_reduced_propagates :
    (∀ (σ ρ γ ι : Type) (xf : CompletingTransformer σ ρ γ ι) (sep input : ι)
        (s s₁ : σ) (r r₁ : ρ), xf.step s r sep = (s₁, .red r₁) →
        (interposeXf sep xf).step (true, s) r input = ((true, s₁), .red r₁))
    ∧ (∀ (α : Type) (sep : α) (l : List α),
        reduceWithTransformer l (interposeXf sep toArrayXf) =
          interposeSpec sep l)
    ∧ reduceWithTransformer ([1, 2, 3] : List Int)
        (interposeXf 0 toArrayXf) = [1, 0, 2, 0, 3] := by
  refine ⟨?_, ?_, ?_⟩
  · intro σ ρ γ ι xf sep input s s₁ r r₁ h
    simp [interposeXf, h]
  · intro α sep l
    exact interpose_toArray sep l
  · rfl

theorem interpose_sep_reduced_propagates_witness :
    (shortCircuitLogger Int).step [] 0 5 = ([.stepped], .red 1) ∧
    (interposeXf 5 (shortCircuitLogger Int)).step (true, []) 0 9 =
      ((true, [.stepped]), .red 1) :=
  ⟨rfl, interpose_sep_reduced_propagates.1 (List Ev) Nat Nat Int
    (shortCircuitLogger Int) 5 9 [] [.stepped] 0 1 rfl⟩

/-! ## The `PartitionAll` stage (claim C6 helpers) -/

/-- The engine plus `result` over `partitionAll(n).toArray()` starting
from an arbitrary buffer: the output is the groups as computed by
`chunkSpec` (full groups flushed by `step`, the trailing one by
`result`). -/
theorem partitionAll_engine (n : Int) :
    ∀ (l : List α) (buf : List α) (r : List (List α)),
      ((partitionAllXf n toArrayXf).result
        (reduceWithFunction (partitionAllXf n toArrayXf).step l
          (buf, ()) r).1
        (unreduced (reduceWithFunction (partitionAllXf n toArrayXf).step l
          (buf, ()) r).2)).2 = r ++ chunkSpec n buf l
  | [], buf, r => by
    by_cases hb : buf.length > 0 <;>
      simp [reduceWithFunction, partitionAllXf, toArrayXf, chunkSpec,
        unreduced, hb]
  | v :: rest, buf, r => by
    by_cases hfull : ((buf ++ [v]).length : Int) = n
    · have hfull' : (buf.length : Int) + 1 = n := by simp at hfull; omega
      have hstep : (partitionAllXf n toArrayXf).step (buf, ()) r v =
          (([], ()), .cont (r ++ [buf ++ [v]])) := by
        simp [partitionAllXf, toArrayXf, hfull']
      have ih := partitionAll_engine n rest [] (r ++ [buf ++ [v]])
      simp only [reduceWithFunction, hstep]
      rw [ih]
      simp [chunkSpec, hfull']
    · have hfull' : ¬(buf.length : Int) + 1 = n := by simp at hfull; omega
      have hstep : (partitionAllXf n toArrayXf).step (buf, ()) r v =
          ((buf ++ [v], ()), .cont r) := by
        simp [partitionAllXf, toArrayXf, hfull']
      have ih := partitionAll_engine n rest (buf ++ [v]) r
      simp only [reduceWithFunction, hstep]
      rw [ih]
      simp [chunkSpec, hfull']

/-- `partitionAll(n).toArray()` groups the source as `chunkSpec`. -/
theorem partitionAll_toArray (n : Int) (l : List α) :
    reduceWithTransformer l (partitionAllXf n toArrayXf) =
      chunkSpec n [] l := by
  have hs : (partitionAllXf n (@toArrayXf (List α))).s0 = ([], ()) := rfl
  have hi : (partitionAllXf n (@toArrayXf (List α))).init = [] := rfl
  rw [reduceWithTransformer_eq, hs, hi]
  simpa using partitionAll_engine n l [] []

/-- With a buffer strictly below capacity, `chunkSpec` groups the buffer
together with the remaining input: its first group is the first `n`
elements of `buf ++ l` and the rest is the grouping of the remainder. -/
theorem chunkSpec_shift (n : Int) (hn : 0 < n) :
    ∀ (l buf : List α), (buf.length : Int) < n → buf ++ l ≠ [] →
      chunkSpec n buf l =
        (buf ++ l).take n.toNat :: chunkSpec n [] ((buf ++ l).drop n.toNat)
  | [], buf, hb, hne => by
    have h0 : buf ≠ [] := by simpa using hne
    have hlen : 0 < buf.length := List.length_pos.mpr h0
    have hle : buf.length ≤ n.toNat := by omega
    simp [chunkSpec, hlen, List.take_of_length_le hle,
      List.drop_of_length_le hle]
  | a :: l', buf, hb, _ => by
    by_cases hfull : ((buf ++ [a]).length : Int) = n
    · have hfull' : (buf.length : Int) + 1 = n := by simpa using hfull
      have hn' : n.toNat = buf.length + 1 := by omega
      have hcons : buf ++ a :: l' = (buf ++ [a]) ++ l' := by simp
      have htake : ((buf ++ [a]) ++ l').take n.toNat = buf ++ [a] := by
        rw [hn']
        have hl : buf.length + 1 = (buf ++ [a]).length := by simp
        rw [hl, List.take_left]
      have hdrop : ((buf ++ [a]) ++ l').drop n.toNat = l' := by
        rw [hn']
        have hl : buf.length + 1 = (buf ++ [a]).length := by simp
        rw [hl, List.drop_left]
      rw [hcons, htake, hdrop]
      simp [chunkSpec, hfull']
    · have hfull' : ¬(buf.length : Int) + 1 = n := by simpa using hfull
      have hlt : ((buf ++ [a]).length : Int) < n := by simp; omega
      have hne' : (buf ++ [a]) ++ l' ≠ [] := by simp
      have ih := chunkSpec_shift n hn l' (buf ++ [a]) hlt hne'
      have hcons : (buf ++ [a]) ++ l' = buf ++ a :: l' := by simp
      rw [hcons] at ih
      rw [← ih]
      simp [chunkSpec, hfull']

/-- C6: for `0 < n`, `partitionAll(n)` forwards a group exactly when its
buffer reaches size `n` and flushes the non-empty trailing buffer during
`result()`: over `toArray` it produces `chunkSpec`, whose groups are the
successive runs of `n` elements with the remainder as final group;
concretely `partitionAll(2)` on `[1,2,3,4,5]` gives `[[1,2],[3,4],[5]]`. -/
theorem partitionAll_groups :
    (∀ (α : Type) (n : Int) (l : List α), 0 < n →
      reduceWithTransformer l (partitionAllXf n toArrayXf) =
        chunkSpec n [] l)
    ∧ (∀ (α : Type) (n : Int) (l : List α), 0 < n → l ≠ [] →
      chunkSpec n ([] : List α) l =
        l.take n.toNat :: chunkSpec n [] (l.drop n.toNat))
    ∧ reduceWithTransformer ([1, 2, 3, 4, 5] : List Int)
        (partitionAllXf 2 toArrayXf) = [[1, 2], [3, 4], [5]] := by
  refine ⟨?_, ?_, ?_⟩
  · intro α n l _
    exact partitionAll_toArray n l
  · intro α n l hn hl
    have h := chunkSpec_shift n hn l [] (by simpa using hn)
      (by simpa using hl)
    simpa using h
  · rfl

theorem partitionAll_groups_witness :
    ((0 : Int) < 2 ∧
      reduceWithTransformer ([1, 2, 3] : List Int)
        (partitionAllXf 2 toArrayXf) = chunkSpec 2 [] [1, 2, 3]) ∧
    ((0 : Int) < 2 ∧ ([1, 2, 3] : List Int) ≠ [] ∧
      chunkSpec 2 ([] : List Int) [1, 2, 3] =
        ([1, 2, 3] : List Int).take 2 :: chunkSpec 2 [] ([1, 2, 3].drop 2)) :=
  ⟨⟨by decide, partitionAll_groups.1 Int 2 [1, 2, 3] (by decide)⟩,
    ⟨by decide, by decide,
      partitionAll_groups.2.1 Int 2 [1, 2, 3] (by decide) (by decide)⟩⟩

/-! ## Reducer wrapping (claim C8 helpers) -/

/-- The engine with a wrapped plain reducer computes the early-stopping
left fold. -/
theorem wrap_fold (f : ρ → ι → MaybeReduced ρ) (init : ρ) :
    ∀ (l : List ι) (r : ρ),
      unreduced (reduceWithFunction
        (ReducerWrappingTransformer f init).step l () r).2 = specFold f r l
  | [], _ => rfl
  | i :: rest, r => by
    have hstep : (ReducerWrappingTransformer f init).step () r i =
        ((), f r i) := rfl
    cases hf : f r i with
    | red r' => simp [reduceWithFunction, hstep, hf, specFold, unreduced]
    | cont r' =>
      have ih := wrap_fold f init rest r'
      simp [reduceWithFunction, hstep, hf, specFold, ih]

/-- The engine with a wrapped plain reducer under a `map` stage computes
the early-stopping left fold over the mapped elements. -/
theorem wrap_map_fold (f : ρ → ο → MaybeReduced ρ) (init : ρ) (g : ι → ο) :
    ∀ (l : List ι) (r : ρ),
      unreduced (reduceWithFunction
        (mapXf g (ReducerWrappingTransformer f init)).step l () r).2 =
      specFold f r (l.map g)
  | [], _ => rfl
  | i :: rest, r => by
    have hstep : (mapXf g (ReducerWrappingTransformer f init)).step () r i =
        ((), f r (g i)) := rfl
    cases hf : f r (g i) with
    | red r' => simp [reduceWithFunction, hstep, hf, specFold, unreduced]
    | cont r' =>
      have ih := wrap_map_fold f init g rest r'
      simp [reduceWithFunction, hstep, hf, specFold, ih]

/-- C8: `reduce` with a plain two-argument reducer function and an
initial value wraps it in a transformer whose `init` returns the supplied
initial value and whose `result` is the identity, and the reduction is
the early-stopping left fold of the reducer over the transformed elements
starting from that initial value (shown for the identity transducer and
for a `map` stage). -/
theorem reduce_function_wrapping :
    (∀ (ρ ι : Type) (f : ρ → ι → MaybeReduced ρ) (init : ρ) (l : List ι),
      transduce l (fun xf => xf) f init = specFold f init l)
    ∧ (∀ (ρ ι ο : Type) (f : ρ → ο → MaybeReduced ρ) (init : ρ)
        (g : ι → ο) (l : List ι),
        transduce l (mapXf g) f init = specFold f init (l.map g))
    ∧ (∀ (ρ ι : Type) (f : ρ → ι → MaybeReduced ρ) (init : ρ),
        (@ReducerWrappingTransformer ρ ι f init).init = init)
    ∧ (∀ (ρ ι : Type) (f : ρ → ι → MaybeReduced ρ) (init : ρ) (s : Unit)
        (r : ρ), (@ReducerWrappingTransformer ρ ι f init).result s r =
          (s, r)) := by
  refine ⟨?_, ?_, ?_, ?_⟩
  · intro ρ ι f init l
    show reduceWithTransformer l (ReducerWrappingTransformer f init) = _
    rw [reduceWithTransformer_eq]
    exact wrap_fold f init l init
  · intro ρ ι ο f init g l
    show reduceWithTransformer l (mapXf g (ReducerWrappingTransformer f init)) = _
    rw [reduceWithTransformer_eq]
    exact wrap_map_fold f init g l init
  · intro ρ ι f init
    rfl
  · intro ρ ι f init s r
    rfl

/-! ## Construction-time errors (claim C9) -/

/-- C9: `partitionAll(n)` and `takeNth(n)` throw synchronously at
stage-construction time for every `n ≤ 0` (the `Except` is produced
before any source is supplied or pulled), and construct successfully for
every `0 < n`. -/
theorem construction_throws_on_nonpos :
    ∀ n : Int,
      (n ≤ 0 →
        isErr (@partitionAll Unit (List (List Int)) (List (List Int)) Int n)
          = true ∧
        isErr (@takeNth Unit (List Int) (List Int) Int n) = true)
      ∧ (0 < n →
        isErr (@partitionAll Unit (List (List Int)) (List (List Int)) Int n)
          = false ∧
        isErr (@takeNth Unit (List Int) (List Int) Int n) = false) := by
  intro n
  refine ⟨fun hn => ?_, fun hn => ?_⟩
  · by_cases h0 : n = 0
    · simp [partitionAll, takeNth, isErr, h0]
    · have hneg : n < 0 := by omega
      simp [partitionAll, takeNth, isErr, h0, hneg]
  · have h0 : ¬n = 0 := by omega
    have hneg : ¬n < 0 := by omega
    simp [partitionAll, takeNth, isErr, h0, hneg]

theorem construction_throws_on_nonpos_witness :
    ((-3 : Int) ≤ 0 ∧
      isErr (@partitionAll Unit (List (List Int)) (List (List Int)) Int (-3))
        = true ∧
      isErr (@takeNth Unit (List Int) (List Int) Int (-3)) = true) ∧
    ((0 : Int) < 4 ∧
      isErr (@partitionAll Unit (List (List Int)) (List (List Int)) Int 4)
        = false ∧
      isErr (@takeNth Unit (List Int) (List Int) Int 4) = false) :=
  ⟨⟨by decide, (construction_throws_on_nonpos (-3)).1 (by decide)⟩,
    ⟨by decide, (construction_throws_on_nonpos 4).2 (by decide)⟩⟩

/-! ## The `toAverage` terminal (claim C10 helpers) -/

/-- The engine over `toAverage` accumulates the running sum and count. -/
theorem average_engine :
    ∀ (l : List ℚ) (s c : ℚ),
      reduceWithFunction toAverage.step l () (s, c) =
        ((), .cont (s + l.sum, c + l.length))
  | [], s, c => by simp [reduceWithFunction]
  | a :: rest, s, c => by
    have hstep : toAverage.step () (s, c) a = ((), .cont (s + a, c + 1)) :=
      rfl
    have ih := average_engine rest (s + a) (c + 1)
    simp only [reduceWithFunction, hstep, ih]
    simp only [MaybeReduced.cont.injEq, Prod.mk.injEq, List.sum_cons,
      List.length_cons]
    exact ⟨trivial, by ring, by push_cast; ring⟩

/-- C10: the `toAverage` transformer (backing `chain.average()`) returns
`null` when the reduction processed zero elements — the zero-count case
is guarded, so no division by zero occurs — and otherwise the sum of the
processed elements divided by their count. -/
theorem average_null_on_empty (l : List ℚ) :
    reduceWithTransformer l toAverage =
      if l = [] then none else some (l.sum / l.length) := by
  have hs : toAverage.s0 = () := rfl
  have hi : toAverage.init = (0, 0) := rfl
  rw [reduceWithTransformer_eq, hs, hi, average_engine l 0 0]
  by_cases h0 : l = []
  · simp [toAverage, unreduced, h0]
  · have hlen : l.length ≠ 0 := by
      simpa [List.length_eq_zero] using h0
    have hcast : (0 : ℚ) + l.length ≠ 0 := by
      simpa using hlen
    simp [toAverage, unreduced, h0, hcast]

/-! ## Accumulator-append property of pipe transformers (claims C1, C2) -/

theorem runSteps_cons_cont (step : S → List γ → ι → S × MaybeReduced (List γ))
    (v : ι) (src : List ι) (s s₁ : S) (outs : List γ)
    (hstep : step s [] v = (s₁, .cont outs)) :
    runSteps step s (v :: src) =
      ((runSteps step s₁ src).1, (runSteps step s₁ src).2.1,
        outs ++ (runSteps step s₁ src).2.2) := by
  simp only [runSteps, hstep]

theorem runSteps_cons_red (step : S → List γ → ι → S × MaybeReduced (List γ))
    (v : ι) (src : List ι) (s s₁ : S) (outs : List γ)
    (hstep : step s [] v = (s₁, .red outs)) :
    runSteps step s (v :: src) = (s₁, true, outs) := by
  simp only [runSteps, hstep]

/-- An engine run over an accumulator-appending step function is its run
over the `[]` accumulator with the given accumulator appended in front:
the engine itself is accumulator-appending. -/
theorem reduceWithFunction_app
    (step : S → List γ → ι → S × MaybeReduced (List γ)) (h : StepApp step) :
    ∀ (l : List ι) (s : S) (r : List γ),
      reduceWithFunction step l s r =
        ((reduceWithFunction step l s []).1,
          mrMap (r ++ ·) (reduceWithFunction step l s []).2)
  | [], s, r => by simp [reduceWithFunction, mrMap]
  | v :: rest, s, r => by
    have hx := h s r v
    rcases hfresh : step s [] v with ⟨s₁, w₁⟩
    rw [hfresh] at hx
    cases w₁ with
    | red o => simp [reduceWithFunction, hx, hfresh, mrMap]
    | cont o =>
      have hx' : step s r v = (s₁, .cont (r ++ o)) := by
        rw [hx]; rfl
      have ih := reduceWithFunction_app step h rest s₁ o
      have ih2 := reduceWithFunction_app step h rest s₁ (r ++ o)
      simp only [reduceWithFunction, hx', hfresh]
      rw [ih2, ih, ← mrMap_append_append]

theorem stepApp_toArrayXf : StepApp (@toArrayXf γ).step := by
  intro s r i
  rfl

theorem stepApp_mapXf (f : ι → ο)
    (xf : CompletingTransformer S (List γ) c ο) (h : StepApp xf.step) :
    StepApp (mapXf f xf).step := by
  intro s r i
  exact h s r (f i)

theorem stepApp_filterXf (pred : ι → Bool)
    (xf : CompletingTransformer S (List γ) c ι) (h : StepApp xf.step) :
    StepApp (filterXf pred xf).step := by
  intro s r i
  by_cases hp : pred i
  · simp only [filterXf, if_pos hp]
    exact h s r i
  · simp [filterXf, hp, mrMap]

theorem stepApp_takeWhileXf (pred : ι → Bool)
    (xf : CompletingTransformer S (List γ) c ι) (h : StepApp xf.step) :
    StepApp (takeWhileXf pred xf).step := by
  intro s r i
  by_cases hp : pred i
  · simp only [takeWhileXf, if_pos hp]
    exact h s r i
  · simp [takeWhileXf, hp, mrMap]

theorem stepApp_takeXf (n : Int)
    (xf : CompletingTransformer S (List γ) c ι) (h : StepApp xf.step) :
    StepApp (takeXf n xf).step := by
  intro p r i
  by_cases hn : n ≤ 0
  · simp [takeXf, hn, mrMap]
  · have hx := h p.2 r i
    rcases hfresh : xf.step p.2 [] i with ⟨s₁, w₁⟩
    rw [hfresh] at hx
    by_cases hi : p.1 < n - 1
    · simp [takeXf, hn, hx, hfresh, hi]
    · simp [takeXf, hn, hx, hfresh, hi, ensureReduced_mrMap]

theorem stepApp_dropXf (n : Int)
    (xf : CompletingTransformer S (List γ) c ι) (h : StepApp xf.step) :
    StepApp (dropXf n xf).step := by
  intro p r i
  by_cases hi : p.1 < n
  · simp [dropXf, hi, mrMap]
  · have hx := h p.2 r i
    rcases hfresh : xf.step p.2 [] i with ⟨s₁, w₁⟩
    rw [hfresh] at hx
    simp [dropXf, hi, hx, hfresh]

theorem stepApp_interposeXf (sep : ι)
    (xf : CompletingTransformer S (List γ) c ι) (h : StepApp xf.step) :
    StepApp (interposeXf sep xf).step := by
  rintro ⟨st, s⟩ r i
  cases st with
  | false =>
    have hx := h s r i
    rcases hfresh : xf.step s [] i with ⟨s₁, w₁⟩
    rw [hfresh] at hx
    simp [interposeXf, hx, hfresh]
  | true =>
    have hx := h s r sep
    rcases hfresh : xf.step s [] sep with ⟨s₁, w₁⟩
    rw [hfresh] at hx
    cases w₁ with
    | red o => simp [interposeXf, hx, hfresh, mrMap]
    | cont o =>
      have hx2 := h s₁ (r ++ o) i
      have hx2' := h s₁ o i
      rcases hfresh2 : xf.step s₁ [] i with ⟨s₂, w₂⟩
      rw [hfresh2] at hx2 hx2'
      simp only [interposeXf, hx, hfresh, mrMap, hx2, hx2']
      cases w₂ <;> simp [mrMap, List.append_assoc]

theorem stepApp_flatMapXf (f : ι → List ο)
    (xf : CompletingTransformer S (List γ) c ο) (h : StepApp xf.step) :
    StepApp (flatMapXf f xf).step := by
  intro s r i
  exact reduceWithFunction_app xf.step h (f i) s r

theorem stepApp_partitionAllXf (n : Int)
    (xf : CompletingTransformer S (List γ) c (List ι)) (h : StepApp xf.step) :
    StepApp (partitionAllXf n xf).step := by
  rintro ⟨buf, s⟩ r i
  have hx := h s r (buf ++ [i])
  rcases hfresh : xf.step s [] (buf ++ [i]) with ⟨s₁, w₁⟩
  rw [hfresh] at hx
  by_cases hfull : (buf.length : Int) + 1 = n
  · simp [partitionAllXf, hfull, hx, hfresh]
  · simp [partitionAllXf, hfull, mrMap]

/-- Every transformer `xf(toArray())` built by applying a pipe's stages
to the array-collecting terminal is accumulator-appending. -/
theorem pipe_stepApp : ∀ (p : Pipe α γ), StepApp ((p.apply toArrayXf).step)
  | .nil => stepApp_toArrayXf
  | .map f rest => stepApp_mapXf f _ (pipe_stepApp rest)
  | .filter q rest => stepApp_filterXf q _ (pipe_stepApp rest)
  | .take n rest => stepApp_takeXf n _ (pipe_stepApp rest)
  | .takeWhile q rest => stepApp_takeWhileXf q _ (pipe_stepApp rest)
  | .drop n rest => stepApp_dropXf n _ (pipe_stepApp rest)
  | .interpose sep rest => stepApp_interposeXf sep _ (pipe_stepApp rest)
  | .flatMap f rest => stepApp_flatMapXf f _ (pipe_stepApp rest)
  | .partitionAll n rest => stepApp_partitionAllXf n _ (pipe_stepApp rest)

/-- For an accumulator-appending step function the engine's run is
described by `runSteps`: same final state, the emitted elements appended
to the starting accumulator, reduced iff some step reduced. -/
theorem engine_runSteps (step : S → List γ → ι → S × MaybeReduced (List γ))
    (h : StepApp step) :
    ∀ (src : List ι) (s : S) (r : List γ),
      reduceWithFunction step src s r =
        ((runSteps step s src).1,
          if (runSteps step s src).2.1 then
            MaybeReduced.red (r ++ (runSteps step s src).2.2)
          else MaybeReduced.cont (r ++ (runSteps step s src).2.2))
  | [], s, r => by simp [reduceWithFunction, runSteps]
  | v :: src', s, r => by
    have hx := h s r v
    rcases hfresh : step s [] v with ⟨s₁, w₁⟩
    rw [hfresh] at hx
    cases w₁ with
    | red o =>
      have hx' : step s r v = (s₁, .red (r ++ o)) := by rw [hx]; rfl
      rw [runSteps_cons_red step v src' s s₁ o hfresh]
      simp [reduceWithFunction, hx']
    | cont o =>
      have hx' : step s r v = (s₁, .cont (r ++ o)) := by rw [hx]; rfl
      have ih := engine_runSteps step h src' s₁ (r ++ o)
      rw [runSteps_cons_cont step v src' s s₁ o hfresh]
      simp only [reduceWithFunction, hx', ih]
      rcases runSteps step s₁ src' with ⟨s₂, b, outs⟩
      cases b <;> simp

/-- Every stage forwards `init` verbatim. -/
theorem pipe_apply_init (p : Pipe α γ)
    (xf : CompletingTransformer σ ρ c γ) : (p.apply xf).init = xf.init := by
  induction p with
  | nil => rfl
  | map f rest ih => exact ih xf
  | filter q rest ih => exact ih xf
  | take n rest ih => exact ih xf
  | takeWhile q rest ih => exact ih xf
  | drop n rest ih => exact ih xf
  | interpose sep rest ih => exact ih xf
  | flatMap f rest ih => exact ih xf
  | partitionAll n rest ih => exact ih xf

/-- For a pipe with no buffering stage, the built transformer's `result`
is the identity on state and accumulator (every stage and the `toArray`
terminal forward `result` verbatim). -/
theorem pipe_result_id :
    ∀ (p : Pipe α γ), p.resultFree = true →
      ∀ (s : p.S Unit) (r : List γ),
        (p.apply toArrayXf).result s r = (s, r)
  | .nil, _, s, r => rfl
  | .map f rest, h, s, r => pipe_result_id rest h s r
  | .filter q rest, h, s, r => pipe_result_id rest h s r
  | .take n rest, h, s, r => by
    have ih := pipe_result_id rest h s.2 r
    simp [Pipe.apply, takeXf, ih]
  | .takeWhile q rest, h, s, r => pipe_result_id rest h s r
  | .drop n rest, h, s, r => by
    have ih := pipe_result_id rest h s.2 r
    simp [Pipe.apply, dropXf, ih]
  | .interpose sep rest, h, s, r => by
    have ih := pipe_result_id rest h s.2 r
    simp [Pipe.apply, interposeXf, ih]
  | .flatMap f rest, h, s, r => pipe_result_id rest h s r
  | .partitionAll n rest, h, s, r => by
    simp [Pipe.resultFree] at h

/-- For a pipe with no buffering stage, `toArray()` produces exactly the
stream-emitted elements: no `result()`-time flush exists. -/
theorem toArrayRun_eq_emitted (p : Pipe α γ) (h : p.resultFree = true)
    (l : List α) :
    p.toArrayRun l =
      emitted (p.apply toArrayXf).step (p.apply toArrayXf).s0 l := by
  have hi : (p.apply (@toArrayXf γ)).init = [] := pipe_apply_init p toArrayXf
  rw [Pipe.toArrayRun, reduceWithTransformer_eq, hi,
    engine_runSteps _ (pipe_stepApp p)]
  rcases hrun : runSteps (p.apply toArrayXf).step (p.apply toArrayXf).s0 l
    with ⟨s₁, b, outs⟩
  cases b <;> simp [pipe_result_id p h, unreduced, emitted, hrun]

/-! ## Lazy iterator lemmas (claims C1, C2) -/

/-- One `next()` call yields exactly the head of the state's future
output, leaving a state whose future is the tail; it reports exhaustion
exactly when the future is empty. -/
theorem lazyNextAux_future
    (step : S → List γ → ι → S × MaybeReduced (List γ)) :
    ∀ (src : List ι) (upc : List γ) (seen : Bool) (s : S),
      future step ⟨src, upc, seen, s⟩ =
        (lazyNextAux step src upc seen s).1.elim []
          (fun y => y :: future step (lazyNextAux step src upc seen s).2.1)
  | src, y :: ys, seen, s => by
    simp [lazyNextAux, future]
  | src, [], true, s => by
    simp [lazyNextAux, future]
  | [], [], false, s => by
    simp [lazyNextAux, future, emitted, runSteps]
  | v :: src', [], false, s => by
    rcases hstep : step s [] v with ⟨s₁, w⟩
    cases w with
    | cont outs =>
      have ih := lazyNextAux_future step src' outs false s₁
      have hfut : future step ⟨v :: src', [], false, s⟩ =
          future step ⟨src', outs, false, s₁⟩ := by
        simp [future, emitted, runSteps_cons_cont step v src' s s₁ outs hstep]
      rcases hin : lazyNextAux step src' outs false s₁ with ⟨o, st, n⟩
      rw [hin] at ih
      simp only [lazyNextAux, hstep, hin]
      rw [hfut, ih]
    | red outs =>
      have ih := lazyNextAux_future step src' outs true s₁
      have hfut : future step ⟨v :: src', [], false, s⟩ =
          future step ⟨src', outs, true, s₁⟩ := by
        simp [future, emitted, runSteps_cons_red step v src' s s₁ outs hstep]
      rcases hin : lazyNextAux step src' outs true s₁ with ⟨o, st, n⟩
      rw [hin] at ih
      simp only [lazyNextAux, hstep, hin]
      rw [hfut, ih]

/-- `lazyNextAux_future` phrased over an iterator state. -/
theorem lazyNext_future (step : S → List γ → ι → S × MaybeReduced (List γ))
    (st : LazySt S ι γ) :
    future step st =
      (lazyNext step st).1.elim []
        (fun y => y :: future step (lazyNext step st).2.1) :=
  lazyNextAux_future step st.source st.upcoming st.hasSeenEnd st.xfState

/-- Consuming `k` outputs from the lazy iterator yields exactly the first
`k` elements of the state's future output (all of it, if fewer remain). -/
theorem lazyConsume_take
    (step : S → List γ → ι → S × MaybeReduced (List γ)) :
    ∀ (k : Nat) (st : LazySt S ι γ),
      (lazyConsume step k st).1 = (future step st).take k
  | 0, st => by simp [lazyConsume]
  | k + 1, st => by
    have hfut := lazyNext_future step st
    rcases hnext : lazyNext step st with ⟨o, st₁, n⟩
    rw [hnext] at hfut
    cases o with
    | none =>
      simp only [Option.elim] at hfut
      simp only [lazyConsume, hnext]
      rw [hfut]
      simp
    | some y =>
      have ih := lazyConsume_take step k st₁
      rcases hcons : lazyConsume step k st₁ with ⟨ys, st₂, m⟩
      rw [hcons] at ih
      simp only [Option.elim] at hfut
      simp only [lazyConsume, hnext, hcons]
      rw [hfut]
      simp only [List.take_succ_cons]
      simpa using ih

/-- C1 (amended): for every chain built from stages that emit nothing
during `result()` (map, filter, take, takeWhile, drop, interpose,
flatMap — no buffering partition stage), consuming any number of outputs
from the iterator returned by `toIterator()` yields exactly the
corresponding prefix of `toArray()` on an equivalently constructed chain
over the same source; with `k` at least the output length this is the
full drain, yielding exactly the `toArray()` sequence.  (For chains whose
last stage buffers, the lazy iterator never calls `result()` and so drops
the trailing buffer — see the counterexample.) -/
theorem toIterator_drain_eq_toArray (p : Pipe α γ) (l : List α)
    (h : p.resultFree = true) (k : Nat) :
    (lazyConsume p.lazyStep k (p.iter l)).1 = (p.toArrayRun l).take k := by
  rw [lazyConsume_take]
  have hfut : future p.lazyStep (p.iter l) =
      emitted (p.apply toArrayXf).step (p.apply toArrayXf).s0 l := by
    simp [future, Pipe.iter, Pipe.lazyStep]
  rw [hfut, ← toArrayRun_eq_emitted p h l]

theorem toIterator_drain_eq_toArray_witness :
    (Pipe.map (fun x : Int => x + 1) Pipe.nil).resultFree = true ∧
    (lazyConsume (Pipe.map (fun x : Int => x + 1) Pipe.nil).lazyStep 5
        ((Pipe.map (fun x : Int => x + 1) Pipe.nil).iter [1, 2, 3])).1 =
      ((Pipe.map (fun x : Int => x + 1) Pipe.nil).toArrayRun
        [1, 2, 3]).take 5 ∧
    ((Pipe.map (fun x : Int => x + 1) Pipe.nil).toArrayRun [1, 2, 3]).take 5
      = [2, 3, 4] :=
  ⟨rfl, toIterator_drain_eq_toArray (Pipe.map (fun x : Int => x + 1) Pipe.nil)
    [1, 2, 3] (by decide) 5, by decide⟩

/-- C1 counterexample: with a buffering last stage the round-trip fails
on the code.  On source `[1,2,3]` with `partitionAll(2)`, fully draining
`toIterator()` yields `[[1,2]]` — the iterator never calls `result()`, so
the trailing buffer `[3]` is dropped — while `toArray()` on an
equivalently constructed chain yields `[[1,2],[3]]`. -/
theorem toIterator_partitionAll_drops_trailing :
    (lazyConsume (Pipe.partitionAll 2 (@Pipe.nil (List Int))).lazyStep 5
        ((Pipe.partitionAll 2 (@Pipe.nil (List Int))).iter [1, 2, 3])).1 =
      [[1, 2]] ∧
    (Pipe.partitionAll 2 (@Pipe.nil (List Int))).toArrayRun [1, 2, 3] =
      [[1, 2], [3]] ∧
    (lazyConsume (Pipe.partitionAll 2 (@Pipe.nil (List Int))).lazyStep 5
        ((Pipe.partitionAll 2 (@Pipe.nil (List Int))).iter [1, 2, 3])).1 ≠
      (Pipe.partitionAll 2 (@Pipe.nil (List Int))).toArrayRun [1, 2, 3] :=
  ⟨rfl, rfl, by decide⟩

/-! ## Pull-count minimality (claim C2) -/

/-- `runSteps` splits over an append as long as the first part did not
reduce. -/
theorem runSteps_append (step : S → List γ → ι → S × MaybeReduced (List γ)) :
    ∀ (a b : List ι) (s : S), (runSteps step s a).2.1 = false →
      runSteps step s (a ++ b) =
        ((runSteps step (runSteps step s a).1 b).1,
          (runSteps step (runSteps step s a).1 b).2.1,
          (runSteps step s a).2.2 ++
            (runSteps step (runSteps step s a).1 b).2.2)
  | [], b, s, _ => by simp [runSteps]
  | v :: a', b, s, hred => by
    rcases hstep : step s [] v with ⟨s₁, w⟩
    cases w with
    | red outs =>
      rw [runSteps_cons_red step v a' s s₁ outs hstep] at hred
      simp at hred
    | cont outs =>
      have hred' : (runSteps step s₁ a').2.1 = false := by
        rw [runSteps_cons_cont step v a' s s₁ outs hstep] at hred
        simpa using hred
      have ih := runSteps_append step a' b s₁ hred'
      have hcons : (v :: a') ++ b = v :: (a' ++ b) := rfl
      rw [hcons, runSteps_cons_cont step v (a' ++ b) s s₁ outs hstep, ih,
        runSteps_cons_cont step v a' s s₁ outs hstep]
      simp [List.append_assoc]

/-- Full characterization of one `next()` call with its pull count `n`:
the source advances by `n`, the transformer state and termination flag
are those of running the pipeline over the `n` pulled elements, the
pulled batch plus backlog is exactly the yielded output followed by the
new backlog (empty when exhaustion is reported), every proper prefix of
the pulled elements yielded nothing (each pull was necessary), and no
pull happens once the end was seen. -/
theorem lazyNextAux_pulls
    (step : S → List γ → ι → S × MaybeReduced (List γ)) :
    ∀ (src : List ι) (upc : List γ) (seen : Bool) (s : S) (o : Option γ)
      (st : LazySt S ι γ) (n : Nat),
      lazyNextAux step src upc seen s = (o, st, n) →
      st.source = src.drop n ∧
      st.xfState = (runSteps step s (src.take n)).1 ∧
      st.hasSeenEnd = (seen || (runSteps step s (src.take n)).2.1) ∧
      (∀ y, o = some y →
        upc ++ emitted step s (src.take n) = y :: st.upcoming) ∧
      (o = none → upc ++ emitted step s (src.take n) = []) ∧
      (∀ m, m < n → upc ++ emitted step s (src.take m) = []) ∧
      (seen = true → n = 0)
  | src, y :: ys, seen, s, o, st, n, h => by
    simp only [lazyNextAux, Prod.mk.injEq] at h
    obtain ⟨ho, hst, hn⟩ := h
    subst ho hst hn
    refine ⟨rfl, by simp [runSteps], by simp [runSteps], ?_, ?_, ?_,
      fun _ => rfl⟩
    · intro y' hy
      cases hy
      simp [emitted, runSteps]
    · intro hnone
      cases hnone
    · intro m hm
      exact absurd hm (by omega)
  | src, [], true, s, o, st, n, h => by
    simp only [lazyNextAux, Prod.mk.injEq] at h
    obtain ⟨ho, hst, hn⟩ := h
    subst ho hst hn
    refine ⟨rfl, by simp [runSteps], by simp [runSteps], ?_, ?_, ?_,
      fun _ => rfl⟩
    · intro y' hy
      cases hy
    · intro _
      simp [emitted, runSteps]
    · intro m hm
      exact absurd hm (by omega)
  | [], [], false, s, o, st, n, h => by
    simp only [lazyNextAux, Prod.mk.injEq] at h
    obtain ⟨ho, hst, hn⟩ := h
    subst ho hst hn
    refine ⟨rfl, by simp [runSteps], by simp [runSteps], ?_, ?_, ?_, ?_⟩
    · intro y' hy
      cases hy
    · intro _
      simp [emitted, runSteps]
    · intro m hm
      exact absurd hm (by omega)
    · intro hcontra
      cases hcontra
  | v :: src', [], false, s, o, st, n, h => by
    rcases hstep : step s [] v with ⟨s₁, w⟩
    cases w with
    | cont outs =>
      rcases hin : lazyNextAux step src' outs false s₁ with ⟨o₀, st₀, n₀⟩
      obtain ⟨ihsrc, ihxf, ihseen, ihsome, ihnone, ihmin, _⟩ :=
        lazyNextAux_pulls step src' outs false s₁ o₀ st₀ n₀ hin
      simp only [lazyNextAux, hstep, hin, Prod.mk.injEq] at h
      obtain ⟨ho, hst, hn⟩ := h
      subst ho hst hn
      have hrun := runSteps_cons_cont step v (src'.take n₀) s s₁ outs hstep
      have hemit : emitted step s (v :: src'.take n₀) =
          outs ++ emitted step s₁ (src'.take n₀) := by
        simp [emitted, hrun]
      refine ⟨?_, ?_, ?_, ?_, ?_, ?_, ?_⟩
      · simpa [List.drop_succ_cons] using ihsrc
      · rw [List.take_succ_cons, hrun]
        exact ihxf
      · rw [List.take_succ_cons, hrun]
        simpa using ihseen
      · intro y hy
        rw [List.take_succ_cons, List.nil_append, hemit]
        exact ihsome y hy
      · intro hnone
        rw [List.take_succ_cons, List.nil_append, hemit]
        exact ihnone hnone
      · intro m hm
        cases m with
        | zero => simp [emitted, runSteps]
        | succ m' =>
          have hm' : m' < n₀ := by omega
          have hrun' :=
            runSteps_cons_cont step v (src'.take m') s s₁ outs hstep
          have hemit' : emitted step s (v :: src'.take m') =
              outs ++ emitted step s₁ (src'.take m') := by
            simp [emitted, hrun']
          rw [List.take_succ_cons, List.nil_append, hemit']
          exact ihmin m' hm'
      · intro hcontra
        cases hcontra
    | red outs =>
      rcases hin : lazyNextAux step src' outs true s₁ with ⟨o₀, st₀, n₀⟩
      obtain ⟨ihsrc, ihxf, ihseen, ihsome, ihnone, _, ihzero⟩ :=
        lazyNextAux_pulls step src' outs true s₁ o₀ st₀ n₀ hin
      have hn₀ : n₀ = 0 := ihzero rfl
      subst hn₀
      simp only [lazyNextAux, hstep, hin, Prod.mk.injEq] at h
      obtain ⟨ho, hst, hn⟩ := h
      subst ho hst hn
      have hrun := runSteps_cons_red step v (src'.take 0) s s₁ outs hstep
      have htake : (v :: src').take (0 + 1) = v :: src'.take 0 :=
        List.take_succ_cons
      have hrun2 : runSteps step s [v] = (s₁, true, outs) :=
        runSteps_cons_red step v [] s s₁ outs hstep
      have hemit : emitted step s (v :: src'.take 0) = outs := by
        simp [emitted, hrun2]
      refine ⟨?_, ?_, ?_, ?_, ?_, ?_, ?_⟩
      · simpa [List.drop_succ_cons] using ihsrc
      · rw [htake, hrun]
        simpa [runSteps] using ihxf
      · rw [htake, hrun]
        simpa [runSteps] using ihseen
      · intro y hy
        rw [htake, List.nil_append, hemit]
        simpa [emitted, runSteps] using ihsome y hy
      · intro hnone
        rw [htake, List.nil_append, hemit]
        simpa [emitted, runSteps] using ihnone hnone
      · intro m hm
        have hm0 : m = 0 := by omega
        subst hm0
        simp [emitted, runSteps]
      · intro hcontra
        cases hcontra

/-- Consuming exactly `k` outputs (every one of the `k` `next()` calls
yielded a value) pulls a minimal number of source elements: the pulled
prefix, together with the starting backlog, provides at least `k`
outputs, while every shorter prefix provides fewer than `k`; and once the
end was seen no pull happens at all. -/
theorem lazyConsume_minimal
    (step : S → List γ → ι → S × MaybeReduced (List γ)) :
    ∀ (k : Nat) (st : LazySt S ι γ),
      ((lazyConsume step k st).1).length = k →
      (k ≤ (st.upcoming ++ emitted step st.xfState
          (st.source.take (lazyConsume step k st).2.2)).length) ∧
      (∀ m, m < (lazyConsume step k st).2.2 →
        (st.upcoming ++ emitted step st.xfState (st.source.take m)).length
          < k) ∧
      (st.hasSeenEnd = true → (lazyConsume step k st).2.2 = 0)
  | 0, st, _ => by
    refine ⟨by omega, ?_, fun _ => rfl⟩
    intro m hm
    simp [lazyConsume] at hm
  | k + 1, st, hlen => by
    rcases hnext : lazyNextAux step st.source st.upcoming st.hasSeenEnd
      st.xfState with ⟨o, st₁, n⟩
    obtain ⟨hsrc₁, hxf₁, hseen₁, hsome, hnone, hmin, hzero⟩ :=
      lazyNextAux_pulls step st.source st.upcoming st.hasSeenEnd st.xfState
        o st₁ n hnext
    cases o with
    | none =>
      have hC : lazyConsume step (k + 1) st = ([], st₁, n) := by
        simp only [lazyConsume, lazyNext, hnext]
      rw [hC] at hlen
      simp at hlen
    | some y =>
      rcases hcons : lazyConsume step k st₁ with ⟨ys, st₂, m⟩
      have hC : lazyConsume step (k + 1) st = (y :: ys, st₂, n + m) := by
        simp only [lazyConsume, lazyNext, hnext, hcons]
      rw [hC] at hlen
      have hys : ys.length = k := by simpa using hlen
      obtain ⟨ia, ib, ic⟩ :=
        lazyConsume_minimal step k st₁ (by rw [hcons]; exact hys)
      rw [hcons] at ia ib ic
      dsimp only at ia ib ic
      have hy : st.upcoming ++ emitted step st.xfState (st.source.take n) =
          y :: st₁.upcoming := hsome y rfl
      rw [hC]
      dsimp only
      by_cases hsc : st₁.hasSeenEnd = true
      · have hm0 : m = 0 := ic hsc
        subst hm0
        simp only [Nat.add_zero]
        refine ⟨?_, ?_, ?_⟩
        · rw [hy]
          have ia' : k ≤ st₁.upcoming.length := by
            simpa [emitted, runSteps] using ia
          simp only [List.length_cons]
          omega
        · intro m' hm'
          have hm'' : m' < n := by omega
          rw [hmin m' hm'']
          simp
        · intro hs
          have hn0 : n = 0 := hzero hs
          omega
      · have hsc' : st₁.hasSeenEnd = false := by
          cases hv : st₁.hasSeenEnd
          · rfl
          · exact absurd hv hsc
        have hflag : (runSteps step st.xfState (st.source.take n)).2.1
            = false := by
          rw [hsc'] at hseen₁
          exact (Bool.or_eq_false_iff.mp hseen₁.symm).2
        have hseen0 : st.hasSeenEnd = false := by
          rw [hsc'] at hseen₁
          exact (Bool.or_eq_false_iff.mp hseen₁.symm).1
        have hsplit : ∀ j,
            st.upcoming ++ emitted step st.xfState (st.source.take (n + j)) =
              (y :: st₁.upcoming) ++
                emitted step st₁.xfState (st₁.source.take j) := by
          intro j
          have htj : st.source.take (n + j) =
              st.source.take n ++ (st.source.drop n).take j :=
            List.take_add st.source n j
          have happ := runSteps_append step (st.source.take n)
            ((st.source.drop n).take j) st.xfState hflag
          have hsplit2 : emitted step st.xfState (st.source.take (n + j)) =
              emitted step st.xfState (st.source.take n) ++
                emitted step (runSteps step st.xfState (st.source.take n)).1
                  ((st.source.drop n).take j) := by
            rw [htj]
            simp [emitted, happ]
          rw [hsplit2, ← hxf₁, ← hsrc₁, ← List.append_assoc, hy]
        refine ⟨?_, ?_, ?_⟩
        · rw [hsplit m]
          simp only [List.length_append, List.length_cons] at ia ⊢
          omega
        · intro m' hm'
          by_cases hcase : m' < n
          · rw [hmin m' hcase]
            simp
          · have hj : m' = n + (m' - n) := by omega
            have hjlt : m' - n < m := by omega
            rw [hj, hsplit (m' - n)]
            have hb := ib (m' - n) hjlt
            simp only [List.length_append, List.length_cons] at hb ⊢
            omega
        · intro hs
          rw [hs] at hseen0
          cases hseen0

/-- C2: for every chain consumed through `toIterator()` and every `k`
(including `k = 0`): when exactly `k` outputs have been consumed (every
`next()` call yielded a value), the number `P` of raw source elements
pulled is the minimum needed to produce those `k` outputs — the chain
emits at least `k` outputs from the first `P` source elements and fewer
than `k` from every shorter prefix — and never more; consuming `0`
outputs pulls nothing. -/
theorem toIterator_minimal_pulls (p : Pipe α γ) (l : List α) (k : Nat)
    (h : ((lazyConsume p.lazyStep k (p.iter l)).1).length = k) :
    (k ≤ (emitted p.lazyStep (p.apply toArrayXf).s0
        (l.take (lazyConsume p.lazyStep k (p.iter l)).2.2)).length)
    ∧ (∀ m, m < (lazyConsume p.lazyStep k (p.iter l)).2.2 →
        (emitted p.lazyStep (p.apply toArrayXf).s0 (l.take m)).length < k)
    ∧ (lazyConsume p.lazyStep 0 (p.iter l)).2.2 = 0 := by
  obtain ⟨ha, hb, _⟩ := lazyConsume_minimal p.lazyStep k (p.iter l) h
  refine ⟨?_, ?_, rfl⟩
  · simpa [Pipe.iter] using ha
  · intro m hm
    simpa [Pipe.iter] using hb m hm

theorem toIterator_minimal_pulls_witness :
    ((lazyConsume (Pipe.filter (fun n : Int => decide (n % 2 = 0))
        Pipe.nil).lazyStep 1
      ((Pipe.filter (fun n : Int => decide (n % 2 = 0)) Pipe.nil).iter
        [1, 3, 4, 5])).1).length = 1 ∧
    ((1 ≤ (emitted (Pipe.filter (fun n : Int => decide (n % 2 = 0))
          Pipe.nil).lazyStep
        ((Pipe.filter (fun n : Int => decide (n % 2 = 0)) Pipe.nil).apply
          toArrayXf).s0
        (([1, 3, 4, 5] : List Int).take
          (lazyConsume (Pipe.filter (fun n : Int => decide (n % 2 = 0))
              Pipe.nil).lazyStep 1
            ((Pipe.filter (fun n : Int => decide (n % 2 = 0)) Pipe.nil).iter
              [1, 3, 4, 5])).2.2)).length)
      ∧ (∀ m, m < (lazyConsume (Pipe.filter
            (fun n : Int => decide (n % 2 = 0)) Pipe.nil).lazyStep 1
          ((Pipe.filter (fun n : Int => decide (n % 2 = 0)) Pipe.nil).iter
            [1, 3, 4, 5])).2.2 →
          (emitted (Pipe.filter (fun n : Int => decide (n % 2 = 0))
              Pipe.nil).lazyStep
            ((Pipe.filter (fun n : Int => decide (n % 2 = 0))
              Pipe.nil).apply toArrayXf).s0
            (([1, 3, 4, 5] : List Int).take m)).length < 1)
      ∧ (lazyConsume (Pipe.filter (fun n : Int => decide (n % 2 = 0))
            Pipe.nil).lazyStep 0
          ((Pipe.filter (fun n : Int => decide (n % 2 = 0)) Pipe.nil).iter
            [1, 3, 4, 5])).2.2 = 0) ∧
    (lazyConsume (Pipe.filter (fun n : Int => decide (n % 2 = 0))
        Pipe.nil).lazyStep 1
      ((Pipe.filter (fun n : Int => decide (n % 2 = 0)) Pipe.nil).iter
        [1, 3, 4, 5])).2.2 = 3 :=
  ⟨by decide,
    toIterator_minimal_pulls
      (Pipe.filter (fun n : Int => decide (n % 2 = 0)) Pipe.nil)
      [1, 3, 4, 5] 1 (by decide),
    by decide⟩

end Transducist
